/-
Verification of the recommendation engine of the `resume_app` repository.

The development shallowly embeds the two Python modules the claims are about:

* `src/resume_app/skill_recommender.py` (class `SkillRecommender` and the
  free function `format_skill_for_template`), and
* `src/src/ai/recommender.py` (the bullet recommendation pipeline).

Conventions of the embedding:

* Python strings are Lean `String`s; `s.lower()` is `pyLower`,
  `needle in hay` (substring test) is `strContains`, `str.split()` is
  `pySplit`, `sep.join l` is `pyJoin`, `list(dict.fromkeys l)` is `pyDedup`.
* Python floats that only ever hold small dyadic/decimal score arithmetic are
  embedded as `Rat`; Python `int(x)` (truncation toward zero) is `pyInt`.
* Python dicts are association lists in insertion order; `defaultdict`
  accumulation is `addScore` / `indexAdd` / `addCount`; dict writes with
  last-write-wins semantics are `dictInsert`; `d.get k default` is
  `(List.lookup k d).getD default`.
* Python's `sorted` (a stable sort) is embedded as the stable insertion sort
  `pySorted`; `sorted(l, key=k, reverse=True)` is `pySorted le l` with
  `le a b := k b ≤ k a` (stable sorts agree on all inputs, so any stable
  sort is a faithful model).
* The external ML capabilities of `src/src/ai/recommender.py`
  (sentence-transformer cosine similarities, the cross-encoder, and spaCy's
  statistical noun-chunker) are injected as an `Oracles` record of score
  functions: the pipeline's control flow is embedded exactly, parameterized
  by those capabilities.  spaCy's sentence segmentation, tokenization and
  `Matcher` are embedded concretely (`sentSplit`, `spacyTokens`,
  `findHeader`) following their documented behaviour on plain prose.
-/
import Mathlib

/-! ## Python string primitives -/

/-- Python `s.lower()` (ASCII model, via `Char.toLower`). -/
def pyLower (s : String) : String := ⟨s.data.map Char.toLower⟩

/-- Python `needle in hay` on lists of characters. -/
def strContainsL (needle : List Char) : List Char → Bool
  | [] => needle.isEmpty
  | c :: rest => needle.isPrefixOf (c :: rest) || strContainsL needle rest

/-- Python `needle in hay` (substring containment) on strings. -/
def strContains (needle hay : String) : Bool := strContainsL needle.data hay.data

/-- A regex word character (`\w`): alphanumeric or underscore. -/
def isWordChar (c : Char) : Bool := c.isAlphanum || c == '_'

/-- Whether an optional character is a word character (`none` = string edge,
which counts as a non-word position for `\b`). -/
def optIsWord (o : Option Char) : Bool := o.any isWordChar

/-- A `\b` word boundary holds between two (optional) characters when exactly
one side is a word character. -/
def boundary (a b : Option Char) : Bool := optIsWord a != optIsWord b

/-- Whether the literal pattern `p`, wrapped in `\b ... \b`, matches at the
current position: `prev` is the character just before the position, `rest` the
remaining text. -/
def matchBoundedAt (p : List Char) (prev : Option Char) (rest : List Char) : Bool :=
  match p with
  | [] => boundary prev rest.head?
  | _ =>
    p.isPrefixOf rest && boundary prev p.head? &&
      boundary p.getLast? (rest.drop p.length).head?

/-- Scan of `re.search(r'\b' + re.escape p + r'\b', text)`: try every start
position. -/
def searchBoundedAux (p : List Char) (prev : Option Char) : List Char → Bool
  | [] => matchBoundedAt p prev []
  | c :: rest => matchBoundedAt p prev (c :: rest) || searchBoundedAux p (some c) rest

/-- Python `re.search(r'\b' + re.escape p + r'\b', t) is not None`. -/
def reSearchBounded (p t : String) : Bool := searchBoundedAux p.data none t.data

/-- Python `s.split()`: split on whitespace runs, dropping empty pieces. -/
def pySplit (s : String) : List String :=
  ((s.data.splitOnP (·.isWhitespace)).filter (· ≠ [])).map (fun l => ⟨l⟩)

/-- Python `sep.join l`. -/
def pyJoin (sep : String) : List String → String
  | [] => ""
  | [x] => x
  | x :: y :: rest => x ++ sep ++ pyJoin sep (y :: rest)

/-- Python `list(dict.fromkeys l)`: deduplicate keeping first occurrences. -/
def pyDedupAux (seen : List String) : List String → List String
  | [] => []
  | x :: rest =>
    if x ∈ seen then pyDedupAux seen rest else x :: pyDedupAux (x :: seen) rest

/-- Python `list(dict.fromkeys l)`. -/
def pyDedup (l : List String) : List String := pyDedupAux [] l

/-- Python `min` over a list of rationals (`0` on the empty list, which the
source never reaches). -/
def listMin : List Rat → Rat
  | [] => 0
  | x :: rest => rest.foldl min x

/-- Python `int(q)`: truncation toward zero. -/
def pyInt (q : Rat) : Int := if q < 0 then -((-q).floor) else q.floor

/-! ## Stable sort (model of Python's `sorted`) -/

/-- Insert `x` after every element `y` of an already sorted list with
`le y x`; the stable-sort insertion step. -/
def insertLe (le : α → α → Bool) (x : α) : List α → List α
  | [] => [x]
  | y :: ys => if le y x then y :: insertLe le x ys else x :: y :: ys

/-- Stable insertion sort: the model of Python's (stable) `sorted` with
comparator `le` (`le a b` = "`a` may come before `b`"). -/
def pySorted (le : α → α → Bool) (l : List α) : List α :=
  l.foldl (fun acc x => insertLe le x acc) []

/-! ## `src/resume_app/skill_recommender.py` -/

/-- A skill taxonomy: `skills_to_categories`, a dict from skill name to the
list of categories it belongs to, in insertion order. -/
abbrev Taxonomy := List (String × List String)

/-- The fixed synonym table of `SkillRecommender._calculate_semantic_score`. -/
def synonyms : List (String × List String) :=
  [("python", ["django", "flask", "pandas", "numpy", "scikit"]),
   ("javascript", ["js", "react", "angular", "vue", "node"]),
   ("java", ["spring", "maven", "gradle"]),
   ("sql", ["database", "mysql", "postgresql", "oracle"]),
   ("cloud", ["aws", "azure", "gcp", "kubernetes", "docker"]),
   ("machine learning", ["ml", "ai", "neural", "tensorflow", "pytorch"]),
   ("frontend", ["react", "angular", "vue", "css", "html"]),
   ("backend", ["api", "server", "database", "microservices"]),
   ("devops", ["ci/cd", "deployment", "automation", "infrastructure"])]

/-- `SkillRecommender._calculate_semantic_score(skill, job_text)`:
`+1.0` for every word of the skill contained (as a substring) in the job
text, then `+0.5` for every related term of a base skill contained in the
skill, found in the job text. -/
def calculate_semantic_score (skill jobText : String) : Rat :=
  let wordScore :=
    (pySplit skill).foldl
      (fun score w => if strContains w jobText then score + 1 else score) (0 : Rat)
  synonyms.foldl
    (fun score bs =>
      if strContains bs.1 (pyLower skill) then
        bs.2.foldl
          (fun s term => if strContains term jobText then s + (1 : Rat) / 2 else s)
          score
      else score)
    wordScore

/-- `SkillRecommender._calculate_skill_relevance(skill, job_text)`:
`+10` for a direct substring mention, `+5` for a word-boundary regex match,
plus the semantic score. -/
def calculate_skill_relevance (skill jobText : String) : Rat :=
  let skillLower := pyLower skill
  let score : Rat := 0
  let score := if strContains skillLower jobText then score + 10 else score
  let score := if reSearchBounded skillLower jobText then score + 5 else score
  score + calculate_semantic_score skillLower jobText

/-- `SkillRecommender._score_skills(job_description)`: keep only the skills
with strictly positive relevance, as a dict in taxonomy (insertion) order. -/
def score_skills (tax : Taxonomy) (jobDescription : String) : List (String × Rat) :=
  let jobText := pyLower jobDescription
  tax.foldl
    (fun acc p =>
      let score := calculate_skill_relevance p.1 jobText
      if 0 < score then acc ++ [(p.1, score)] else acc)
    []

/-- `category_scores[category] += score` on a `defaultdict(float)` embedded as
an association list in first-touch order. -/
def addScore : List (String × Rat) → String → Rat → List (String × Rat)
  | [], cat, sc => [(cat, sc)]
  | (c, v) :: rest, cat, sc =>
    if c = cat then (c, v + sc) :: rest else (c, v) :: addScore rest cat sc

/-- `SkillRecommender._score_categories(skill_scores)`: each category's score
is the sum of the scores of its surviving member skills. -/
def score_categories (tax : Taxonomy) (skillScores : List (String × Rat)) :
    List (String × Rat) :=
  skillScores.foldl
    (fun acc p => ((List.lookup p.1 tax).getD []).foldl (fun a c => addScore a c p.2) acc)
    []

/-- `SkillRecommender._get_category_type(category)`: coarse category type by
keyword sniffing, first matching rule wins. -/
def get_category_type (category : String) : String :=
  let cl := pyLower category
  if ["programming", "language", "framework"].any (fun t => strContains t cl) then
    "programming"
  else if ["cloud", "infrastructure", "devops"].any (fun t => strContains t cl) then
    "infrastructure"
  else if ["data", "analytics", "machine learning", "ai"].any (fun t => strContains t cl) then
    "data"
  else if ["tool", "software", "platform"].any (fun t => strContains t cl) then
    "tools"
  else "other"

/-- Comparator of `sorted(..., key=lambda x: x[1], reverse=True)`: stable
descending by score. -/
def byScoreDesc (a b : String × Rat) : Bool := decide (b.2 ≤ a.2)

/-- First pass of `SkillRecommender._select_top_categories`: walk the sorted
categories, accepting a category when its type is new or fewer than 2 are
accepted, stopping at `numCategories`. -/
def selectPass1 (numCategories : Nat) :
    List (String × Rat) → List String → List String → List String
  | [], selected, _ => selected
  | (category, _) :: rest, selected, categoryTypes =>
    if numCategories ≤ selected.length then selected
    else
      let ty := get_category_type category
      if ty ∉ categoryTypes ∨ selected.length < 2 then
        selectPass1 numCategories rest (selected ++ [category])
          (if ty ∈ categoryTypes then categoryTypes else categoryTypes ++ [ty])
      else selectPass1 numCategories rest selected categoryTypes

/-- Second pass of `SkillRecommender._select_top_categories`: fill remaining
slots by descending score, skipping already selected categories. -/
def selectPass2 (numCategories : Nat) :
    List (String × Rat) → List String → List String
  | [], selected => selected
  | (category, _) :: rest, selected =>
    if numCategories ≤ selected.length then selected
    else if category ∈ selected then selectPass2 numCategories rest selected
    else selectPass2 numCategories rest (selected ++ [category])

/-- `SkillRecommender._select_top_categories(category_scores, num_categories)`. -/
def select_top_categories (categoryScores : List (String × Rat))
    (numCategories : Nat) : List String :=
  let sortedCategories := pySorted byScoreDesc categoryScores
  let selected := selectPass1 numCategories sortedCategories [] []
  let selected :=
    if selected.length < numCategories then
      selectPass2 numCategories sortedCategories selected
    else selected
  selected.take numCategories

/-- `categories_to_skills[category].append(skill)` on the reverse index. -/
def indexAdd : List (String × List String) → String → String → List (String × List String)
  | [], cat, skill => [(cat, [skill])]
  | (c, ss) :: rest, cat, skill =>
    if c = cat then (c, ss ++ [skill]) :: rest else (c, ss) :: indexAdd rest cat skill

/-- `SkillRecommender._build_category_index()`: reverse index from categories
to their member skills, in first-touch order. -/
def build_category_index (tax : Taxonomy) : List (String × List String) :=
  tax.foldl (fun acc p => p.2.foldl (fun a c => indexAdd a c p.1) acc) []

/-- The per-category skill selection of `SkillRecommender.recommend_skills`:
member skills with a (positive) score, sorted descending by score, at most 4. -/
def relevant_skills (skillScores : List (String × Rat))
    (categorySkills : List String) : List String :=
  (pySorted
      (fun a b =>
        decide ((List.lookup b skillScores).getD 0 ≤ (List.lookup a skillScores).getD 0))
      (categorySkills.filter (fun s => (List.lookup s skillScores).isSome))).take 4

/-- `SkillRecommender.recommend_skills(job_description, num_categories)`. -/
def recommend_skills (tax : Taxonomy) (jobDescription : String)
    (numCategories : Nat) : List (String × List String) :=
  let skillScores := score_skills tax jobDescription
  let categoryScores := score_categories tax skillScores
  let topCategories := select_top_categories categoryScores numCategories
  topCategories.foldl
    (fun result category =>
      let rs := relevant_skills skillScores ((List.lookup category (build_category_index tax)).getD [])
      if rs = [] then result else result ++ [(category, rs)])
    []

/-- `format_skill_for_template(category, skills)`:
`"<category> [<skill>, <skill>, ...]"`.  The function takes no character
limit and performs no truncation. -/
def format_skill_for_template (category : String) (skills : List String) : String :=
  let skillsStr := pyJoin ", " skills
  category ++ " [" ++ skillsStr ++ "]"

/-! ## `src/src/ai/recommender.py` -/

/-- `preprocess_text(text)`: lowercase and collapse whitespace. -/
def preprocess_text (text : String) : String := pyJoin " " (pySplit (pyLower text))

/-- The `STOPWORDS` set of the recommender module. -/
def STOPWORDS : List String :=
  ["using", "with", "and", "or", "the", "for", "in", "on", "at", "to", "from", "by", "of",
   "experience", "experienced", "years", "year", "skills", "skill", "ability", "abilities",
   "work", "works", "working", "used", "use", "apply", "applied", "that", "is", "are",
   "a", "an", "as", "be", "have", "has", "will", "would", "should", "can", "may",
   "technologies"]

/-- `re.findall(r"\w{3,}", text)`: the maximal word-character runs of length
at least 3, in order (the greedy regex matches exactly those runs). -/
def findallWords3 (text : String) : List String :=
  ((text.data.splitOnP (fun c => !isWordChar c)).filter (fun l => 3 ≤ l.length)).map
    (fun l => ⟨l⟩)

/-- Comparator of `sorted(freq.items(), key=lambda x: (-x[1], -len(x[0])))`:
stable ascending in the key, i.e. descending frequency, then descending
phrase length. -/
def byFreqThenLen (x y : String × Nat) : Bool :=
  decide (y.2 < x.2) || (decide (x.2 = y.2) && decide (y.1.length ≤ x.1.length))

/-- `freq[c] = freq.get(c, 0) + 1` on a dict embedded as an association list
in first-touch order. -/
def addCount : List (String × Nat) → String → List (String × Nat)
  | [], c => [(c, 1)]
  | (k, v) :: rest, c =>
    if k = c then (k, v + 1) :: rest else (k, v) :: addCount rest c

/-- `extract_skills_from_jd(jd_text, top_k)`: the most salient uni/bi/trigram
candidates, ranked by frequency then phrase length.  The bigram/trigram index
loops of the source are rendered with `zipWith` over the token list and its
tails, which produces the same adjacent pairs and triples. -/
def extract_skills_from_jd (jdText : String) (top_k : Nat) : List String :=
  let textLow := pyLower jdText
  let words0 := findallWords3 textLow
  let words := words0.filter (fun w => !(STOPWORDS.contains w))
  if words = [] then []
  else
    let unigrams := pyDedup words
    let bigrams := List.zipWith (fun a b => a ++ " " ++ b) words words.tail
    let trigrams := List.zipWith (fun a bc => a ++ " " ++ bc) words bigrams.tail
    let candidates := unigrams ++ bigrams ++ trigrams
    let freq := candidates.foldl addCount []
    let ranked := pySorted byFreqThenLen freq
    (ranked.take top_k).map Prod.fst

/-! ### Model of the spaCy capabilities used by `extract_priority_skills`

The module runs `spacy.load("en_core_web_sm")` and uses three of its
facilities.  Sentence segmentation and tokenization are embedded concretely
below following spaCy's documented behaviour on plain prose (sentences end at
`.`/`!`/`?`; tokens are word-character runs with punctuation marks split off
as single-character tokens).  The statistical noun-chunker has no simple
closed form and is injected as a function parameter (`nounChunks`). -/

/-- Model of spaCy sentence segmentation: split at sentence-final punctuation,
dropping whitespace-only fragments. -/
def sentSplit (t : String) : List String :=
  ((t.data.splitOnP (fun c => c == '.' || c == '!' || c == '?')).map
      (fun l => (String.mk l).trim)).filter (· ≠ "")

/-- One step of the tokenizer model, consuming one character (via `foldr`):
word characters extend a word-run token, whitespace separates tokens, and any
other character becomes a single-character token. -/
def tokStep (c : Char) (acc : List String) : List String :=
  if c.isWhitespace then "" :: acc
  else if isWordChar c then
    match acc with
    | t :: rest =>
      if t ≠ "" && isWordChar (t.data.headD ' ') then String.mk (c :: t.data) :: rest
      else String.mk [c] :: t :: rest
    | [] => [String.mk [c]]
  else String.mk [c] :: acc

/-- Model of spaCy tokenization of one sentence. -/
def spacyTokens (s : String) : List String := (s.data.foldr tokStep []).filter (· ≠ "")

/-- The `MUST_HAVE` token patterns registered on the spaCy `Matcher`
(each token compared on its lowercase form). -/
def MUST_PATTERNS : List (List String) :=
  [["must", "have"], ["must-have"], ["required"], ["essential"]]

/-- The `NICE_TO_HAVE` token patterns registered on the spaCy `Matcher`. -/
def NICE_PATTERNS : List (List String) :=
  [["nice", "to", "have"], ["nice-to-have"], ["preferred"], ["might", "also", "have"]]

/-- Whether some pattern of `pats` matches at the start of the token list. -/
def matchesAt (pats : List (List String)) (toks : List String) : Bool :=
  pats.any (fun p => p.isPrefixOf toks)

/-- The label of the first `Matcher` match over the (lowercased) token list,
scanning start positions left to right: `some true` for `MUST_HAVE`,
`some false` for `NICE_TO_HAVE`.  The source's loop over `matcher(sent_doc)`
breaks at the first match of either label. -/
def findHeader : List String → Option Bool
  | [] => none
  | t :: rest =>
    if matchesAt MUST_PATTERNS (t :: rest) then some true
    else if matchesAt NICE_PATTERNS (t :: rest) then some false
    else findHeader rest

/-- The result type of `extract_priority_skills`. -/
structure PrioritySet where
  must_have : List String
  nice_to_have : List String
deriving DecidableEq, Repr

/-- `extract_priority_skills(jd_text)`: walk the sentences keeping a current
section; a sentence matching a header switches the section and contributes no
phrases; other sentences contribute their noun chunks (stripped) to the
active section; both lists are deduplicated preserving order.  The spaCy
noun-chunker is the parameter `nounChunks`. -/
def extract_priority_skills (nounChunks : String → List String) (jdText : String) :
    PrioritySet :=
  let step := fun (st : Option Bool × List String × List String) (sentText : String) =>
    let toks := (spacyTokens sentText).map pyLower
    match findHeader toks with
    | some b => (some b, st.2.1, st.2.2)
    | none =>
      match st.1 with
      | none => st
      | some true => (some true, st.2.1 ++ (nounChunks sentText).map String.trim, st.2.2)
      | some false => (some false, st.2.1, st.2.2 ++ (nounChunks sentText).map String.trim)
  let final := (sentSplit jdText).foldl step (none, [], [])
  ⟨pyDedup final.2.1, pyDedup final.2.2⟩

/-! ### The bullet recommendation pipeline -/

/-- A bullet record: the source passes dicts with at least a `bullet` text and
a `lines` cost; only `bullet` is read by the recommender. -/
structure Bullet where
  bullet : String
  lines : Nat
deriving DecidableEq, Repr

/-- The external ML capabilities of the module, injected as score functions:
`sim jd text` is the Sentence-BERT cosine similarity used by
`two_tower_recommendation`; `ce jd text` is the cross-encoder relevance
score; `psim bulletText phrase` is the bullet/phrase cosine similarity of the
boosting stage; `nounChunks` is spaCy's noun-chunker. -/
structure Oracles where
  sim : String → String → Rat
  ce : String → String → Rat
  psim : String → String → Rat
  nounChunks : String → List String

/-- Comparator of `sorted(..., key=lambda x: x[1], reverse=True)` over
`(text, similarity)` pairs. -/
def bySimDesc (a b : String × Rat) : Bool := decide (b.2 ≤ a.2)

/-- `two_tower_recommendation(job_description, user_experiences, top_n)`:
score every candidate text by embedding similarity, sort descending
(stably), and keep the first `top_n`. -/
def two_tower_recommendation (O : Oracles) (jobDescription : String)
    (userExperiences : List String) (top_n : Nat) : List (String × Rat) :=
  let scoredExperiences := userExperiences.map (fun t => (t, O.sim jobDescription t))
  (pySorted bySimDesc scoredExperiences).take top_n

/-- `mapping[key] = b` on a Python dict: overwrite in place on an existing
key (last write wins), append otherwise. -/
def dictInsert : List (String × Bullet) → String → Bullet → List (String × Bullet)
  | [], k, v => [(k, v)]
  | (k0, v0) :: rest, k, v =>
    if k0 = k then (k0, v) :: rest else (k0, v0) :: dictInsert rest k v

/-- `_get_semantic_recommendations(bullets, jd_text, top_n)`: build the
normalized-text→record mapping, retrieve by similarity, and map the retrieved
texts back to their records, scaling scores by 100. -/
def get_semantic_recommendations (O : Oracles) (bullets : List Bullet)
    (jdText : String) (top_n : Nat) : List (Bullet × Rat × List String) :=
  let mapping := bullets.foldl (fun acc b => dictInsert acc (preprocess_text b.bullet) b) []
  let preprocessedTexts := mapping.map Prod.fst
  let recommendations := two_tower_recommendation O jdText preprocessedTexts top_n
  recommendations.foldl
    (fun results p =>
      match List.lookup p.1 mapping with
      | some original => results ++ [(original, p.2 * 100, ([] : List String))]
      | none => results)
    []

/-- Comparator of the descending sorts by score over
`(record, score, matches)` triples. -/
def byTripleScoreDesc (a b : Bullet × Rat × List String) : Bool :=
  decide (b.2.1 ≤ a.2.1)

/-- The cross-encoder scoring and descending sort of
`_apply_cross_encoder_reranking`, before normalization. -/
def cross_sorted (O : Oracles) (results : List (Bullet × Rat × List String))
    (jdText : String) : List (Bullet × Rat × List String) :=
  pySorted byTripleScoreDesc
    (results.map (fun r => (r.1, O.ce jdText (preprocess_text r.1.bullet) * 100, r.2.2)))

/-- `_apply_cross_encoder_reranking(results, jd_text)`: replace each score by
the cross-encoder score × 100, sort descending, then (on a non-empty list)
shift every score by `-min_score + 1`. -/
def apply_cross_encoder_reranking (O : Oracles)
    (results : List (Bullet × Rat × List String)) (jdText : String) :
    List (Bullet × Rat × List String) :=
  let sortedResults := cross_sorted O results jdText
  if sortedResults.isEmpty then sortedResults
  else
    let minScore := listMin (sortedResults.map (fun x => x.2.1))
    sortedResults.map (fun x => (x.1, x.2.1 - minScore + 1, x.2.2))

/-- Comparator of the final descending sort over integer-scored triples. -/
def byIntScoreDesc (a b : Bullet × Int × List String) : Bool :=
  decide (b.2.1 ≤ a.2.1)

/-- Comparator of `sorted(range(len(sims)), key=lambda i: sims[i],
reverse=True)`. -/
def byIdxSimDesc (sims : List Rat) (i j : Nat) : Bool :=
  decide (sims.getD j 0 ≤ sims.getD i 0)

/-- `_apply_priority_boosting(results, jd_text, priorities)`: record the top-3
phrase matches above similarity 0.1 as evidence, add +20 per contained
must-have phrase and +10 per contained nice-to-have phrase, truncate to
integers, and sort descending (stably). -/
def apply_priority_boosting (O : Oracles)
    (results : List (Bullet × Rat × List String)) (jdText : String)
    (priorities : PrioritySet) : List (Bullet × Int × List String) :=
  let jdCandidates := extract_skills_from_jd jdText 40
  let adjusted := results.map (fun r =>
    let bulletText := preprocess_text r.1.bullet
    let sims := jdCandidates.map (fun c => O.psim bulletText c)
    let topIdxs := (pySorted (byIdxSimDesc sims) (List.range sims.length)).take 3
    let matchedPhrases :=
      (topIdxs.filter (fun i => decide ((1 : Rat) / 10 < sims.getD i 0))).map
        (fun i => jdCandidates.getD i "")
    let scoreAdj := priorities.must_have.foldl
      (fun s p => if strContains (pyLower p) (pyLower bulletText) then s + 20 else s)
      r.2.1
    let scoreAdj := priorities.nice_to_have.foldl
      (fun s p => if strContains (pyLower p) (pyLower bulletText) then s + 10 else s)
      scoreAdj
    (r.1, pyInt scoreAdj, matchedPhrases))
  pySorted byIntScoreDesc adjusted

/-- `recommend_with_matches(bullets, jd_text, top_n)`: the full pipeline —
priority extraction, semantic retrieval, cross-encoder re-ranking, priority
boosting. -/
def recommend_with_matches (O : Oracles) (bullets : List Bullet) (jdText : String)
    (top_n : Nat) : List (Bullet × Int × List String) :=
  let priorities := extract_priority_skills O.nounChunks jdText
  let semanticResults := get_semantic_recommendations O bullets jdText top_n
  let crossEncoderResults := apply_cross_encoder_reranking O semanticResults jdText
  apply_priority_boosting O crossEncoderResults jdText priorities

/-! ## Spec-side definitions and concrete test data

`isStandaloneToken` renders the specification's wording for the semantic
word bonus (claim C8) so it can be compared against the code's behaviour;
`synonymScore` names the synonym part of `calculate_semantic_score` for the
decomposition theorem.  The remaining definitions are concrete inputs used
by counterexamples and witnesses. -/

/-- The specification's notion of the per-word bonus condition: the word
occurs as a standalone (whitespace-delimited) token of the job text. -/
def isStandaloneToken (w jobText : String) : Bool := (pySplit jobText).contains w

/-- The synonym part of `calculate_semantic_score`, evaluated from a zero
accumulator. -/
def synonymScore (skill jobText : String) : Rat :=
  synonyms.foldl
    (fun score bs =>
      if strContains bs.1 (pyLower skill) then
        bs.2.foldl
          (fun s term => if strContains term jobText then s + (1 : Rat) / 2 else s)
          score
      else score)
    0

/-- Oracles that score everything 0 and extract no noun chunks. -/
def zeroOracles : Oracles := ⟨fun _ _ => 0, fun _ _ => 0, fun _ _ => 0, fun _ => []⟩

/-- Oracles whose cross-encoder slightly prefers the text `"beta"`. -/
def tieOracles : Oracles :=
  ⟨fun _ _ => 0, fun _ t => if t = "beta" then (1 : Rat) / 200 else 0,
   fun _ _ => 0, fun _ => []⟩

/-- A concrete bullet record. -/
def bulletA : Bullet := ⟨"alpha", 1⟩

/-- A concrete bullet record. -/
def bulletB : Bullet := ⟨"beta", 1⟩

/-- The skill list of the specification's formatter boundary example. -/
def cloudSkills : List String := ["AWS", "Azure", "GCP", "Kubernetes", "Docker", "Terraform"]

/-! ## General lemmas about the stable sort -/
theorem insertLe_perm (le : α → α → Bool) (x : α) :
    ∀ l : List α, List.Perm (insertLe le x l) (x :: l)
  | [] => List.Perm.refl _
  | y :: ys => by
    unfold insertLe
    split
    · exact ((insertLe_perm le x ys).cons y).trans (List.Perm.swap x y ys)
    · exact List.Perm.refl _

theorem pySorted_foldl_perm (le : α → α → Bool) :
    ∀ (l acc : List α),
      List.Perm (l.foldl (fun acc x => insertLe le x acc) acc) (acc ++ l)
  | [], acc => by simp
  | x :: l, acc => by
    refine (pySorted_foldl_perm le l (insertLe le x acc)).trans ?_
    refine (((insertLe_perm le x acc).append_right l).trans ?_)
    simpa using List.perm_middle.symm

theorem pySorted_perm (le : α → α → Bool) (l : List α) :
    List.Perm (pySorted le l) l := by
  simpa [pySorted] using pySorted_foldl_perm le l []

theorem length_pySorted (le : α → α → Bool) (l : List α) :
    (pySorted le l).length = l.length :=
  (pySorted_perm le l).length_eq

theorem mem_pySorted {le : α → α → Bool} {l : List α} {a : α} :
    a ∈ pySorted le l ↔ a ∈ l :=
  (pySorted_perm le l).mem_iff

theorem mem_insertLe {le : α → α → Bool} {x a : α} {l : List α} :
    a ∈ insertLe le x l ↔ a = x ∨ a ∈ l := by
  rw [(insertLe_perm le x l).mem_iff, List.mem_cons]

theorem pairwise_insertLe {le : α → α → Bool}
    (trans : ∀ a b c, le a b → le b c → le a c)
    (total : ∀ a b, le a b || le b a) (x : α) :
    ∀ {l : List α}, l.Pairwise (fun a b => le a b = true) →
      (insertLe le x l).Pairwise (fun a b => le a b = true)
  | [], _ => by simp [insertLe]
  | y :: ys, h => by
    unfold insertLe
    rw [List.pairwise_cons] at h
    split
    · rename_i hyx
      rw [List.pairwise_cons]
      refine ⟨?_, pairwise_insertLe trans total x h.2⟩
      intro a ha
      rcases mem_insertLe.1 ha with rfl | ha
      · exact hyx
      · exact h.1 a ha
    · rename_i hyx
      have hxy : le x y = true := by
        have h1 := total y x
        simp only [Bool.or_eq_true] at h1
        tauto
      rw [List.pairwise_cons]
      refine ⟨fun a ha => ?_, List.pairwise_cons.2 h⟩
      rcases List.mem_cons.1 ha with rfl | ha
      · exact hxy
      · exact trans _ _ _ hxy (h.1 a ha)

theorem pairwise_pySorted {le : α → α → Bool}
    (trans : ∀ a b c, le a b → le b c → le a c)
    (total : ∀ a b, le a b || le b a) (l : List α) :
    (pySorted le l).Pairwise (fun a b => le a b = true) := by
  suffices h : ∀ (l acc : List α), acc.Pairwise (fun a b => le a b = true) →
      (l.foldl (fun acc x => insertLe le x acc) acc).Pairwise
        (fun a b => le a b = true) from
    h l [] (List.Pairwise.nil)
  intro l
  induction l with
  | nil => intro acc hacc; simpa using hacc
  | cons x rest ih =>
    intro acc hacc
    exact ih _ (pairwise_insertLe trans total x hacc)


/-! ## General helper lemmas -/

theorem mem_pyJoin_infix (sep : String) :
    ∀ {skills : List String} {s : String}, s ∈ skills →
      s.data <:+: (pyJoin sep skills).data
  | [], s, hs => absurd hs (List.not_mem_nil s)
  | [x], s, hs => by
    rcases List.mem_singleton.1 hs with rfl
    exact List.infix_refl _
  | x :: y :: rest, s, hs => by
    rcases List.mem_cons.1 hs with rfl | hs
    · show s.data <:+: (s ++ sep ++ pyJoin sep (y :: rest)).data
      simp only [String.data_append]
      exact ⟨[], sep.data ++ (pyJoin sep (y :: rest)).data, by simp⟩
    · have ih : s.data <:+: (pyJoin sep (y :: rest)).data := mem_pyJoin_infix sep hs
      refine ih.trans ?_
      show (pyJoin sep (y :: rest)).data <:+: (x ++ sep ++ pyJoin sep (y :: rest)).data
      simp only [String.data_append]
      exact ⟨x.data ++ sep.data, [], by simp⟩

/-! ## C2: the formatter and the character limit -/

/-- C2 counterexample: on the specification's boundary input the formatter
returns a 64-character string, exceeding the claimed 50-character limit (no
truncation is performed). -/
theorem format_skill_limit_cex :
    (format_skill_for_template "Cloud Platforms" cloudSkills).length = 64 ∧
      ¬ (format_skill_for_template "Cloud Platforms" cloudSkills).length ≤ 50 := by
  decide

/-- C2 (amended): `format_skill_for_template` takes no character limit and
never truncates: every skill of the input occurs verbatim in the formatted
string, for every category and skill list; the function is total, so it never
raises. -/
theorem format_skill_no_truncation (category : String) (skills : List String)
    (s : String) (hs : s ∈ skills) :
    s.data <:+: (format_skill_for_template category skills).data := by
  have h := mem_pyJoin_infix ", " hs
  refine h.trans ?_
  show (pyJoin ", " skills).data <:+: (category ++ " [" ++ pyJoin ", " skills ++ "]").data
  simp only [String.data_append]
  exact ⟨category.data ++ " [".data, "]".data, by simp⟩

theorem format_skill_no_truncation_witness :
    "AWS" ∈ cloudSkills ∧
      "AWS".data <:+: (format_skill_for_template "Cloud Platforms" cloudSkills).data :=
  ⟨by decide, format_skill_no_truncation "Cloud Platforms" cloudSkills "AWS" (by decide)⟩

/-! ## C9: empty inputs produce empty results -/

/-- C9: with an empty bullet pool the whole pipeline returns an empty result,
and the semantic retrieval stage on an empty candidate-text list returns an
empty result; both are total functions, so neither raises. -/
theorem recommend_empty_inputs (O : Oracles) (jdText : String) (top_n : Nat) :
    recommend_with_matches O [] jdText top_n = [] ∧
      two_tower_recommendation O jdText [] top_n = [] := by
  refine ⟨?_, ?_⟩ <;>
    simp [recommend_with_matches, get_semantic_recommendations,
      apply_cross_encoder_reranking, cross_sorted, apply_priority_boosting,
      two_tower_recommendation, pySorted]

/-! ## C8: the per-word semantic bonus -/

/-- C8 counterexample: the word `"java"` earns the +1.0 bonus against the job
text `"javascript"` although it does not occur as a standalone token there:
the code tests substring containment, not standalone-token occurrence. -/
theorem semantic_score_standalone_cex :
    calculate_semantic_score "java" "javascript" = 1 ∧
      isStandaloneToken "java" "javascript" = false := by
  with_unfolding_all decide

theorem foldl_count_rat (p : α → Bool) :
    ∀ (l : List α) (a : Rat),
      l.foldl (fun s x => if p x then s + 1 else s) a = a + (l.filter p).length
  | [], a => by simp
  | x :: l, a => by
    rw [List.foldl_cons, foldl_count_rat p l (if p x then a + 1 else a)]
    by_cases h : p x <;> simp [h, List.filter_cons] <;> push_cast <;> ring

theorem foldl_shift (f : Rat → α → Rat) (hf : ∀ s x, f s x = s + f 0 x) :
    ∀ (l : List α) (a : Rat), l.foldl f a = a + l.foldl f 0
  | [], a => by simp
  | x :: l, a => by
    rw [List.foldl_cons, List.foldl_cons, foldl_shift f hf l (f a x),
      foldl_shift f hf l (f 0 x), hf a x]
    ring

theorem synonym_inner_shift (jobText : String) (terms : List String) (a : Rat) :
    terms.foldl (fun s term => if strContains term jobText then s + (1 : Rat) / 2 else s) a
      = a + terms.foldl
          (fun s term => if strContains term jobText then s + (1 : Rat) / 2 else s) 0 := by
  refine foldl_shift _ (fun s x => ?_) terms a
  by_cases h : strContains x jobText <;> simp [h]

theorem synonym_outer_shift (skill jobText : String) (a : Rat) :
    synonyms.foldl
        (fun score bs =>
          if strContains bs.1 (pyLower skill) then
            bs.2.foldl
              (fun s term => if strContains term jobText then s + (1 : Rat) / 2 else s)
              score
          else score) a
      = a + synonymScore skill jobText := by
  rw [synonymScore]
  refine foldl_shift _ (fun s x => ?_) synonyms a
  by_cases h : strContains x.1 (pyLower skill)
  · simp only [h, if_true]
    exact synonym_inner_shift jobText x.2 s
  · simp [h]

/-- C8 (amended): the per-word semantic bonus is +1.0 for every word of the
candidate that occurs as a substring (Python `in`) of the job text —
standalone-token occurrence is not required: the total semantic score is the
number of substring-contained words plus the synonym bonus. -/
theorem semantic_score_substring (skill jobText : String) :
    calculate_semantic_score skill jobText
      = ((pySplit skill).filter (fun w => strContains w jobText)).length
          + synonymScore skill jobText := by
  rw [calculate_semantic_score]
  rw [synonym_outer_shift skill jobText, foldl_count_rat]
  push_cast
  ring

/-! ## C4: priority extraction on the specification's example -/

/-- C4 counterexample: on the specification's example input both priority
lists come back empty (so `must_have` does not contain any phrase derived
from "Python experience"): each sentence matches a header and is consumed
without contributing phrases. -/
theorem extract_priorities_example_cex :
    (extract_priority_skills (fun _ => [])
        "Must have: Python experience. Nice to have: Docker knowledge.").must_have = []
      ∧ (extract_priority_skills (fun _ => [])
          "Must have: Python experience. Nice to have: Docker knowledge.").nice_to_have
          = [] := by
  with_unfolding_all decide

/-- C4 (amended): on the input
`"Must have: Python experience. Nice to have: Docker knowledge."` the
extractor returns empty `must_have` and `nice_to_have` lists, whatever the
noun-chunker returns: both sentences match a section header, and a header
sentence is consumed as a marker only. -/
theorem extract_priorities_headers_consumed (nounChunks : String → List String) :
    extract_priority_skills nounChunks
        "Must have: Python experience. Nice to have: Docker knowledge."
      = ⟨[], []⟩ := by
  with_unfolding_all rfl

/-! ## C6: the diversity pass and the first two picks -/

/-- C6 counterexample: three categories with identical scores, the first two
of one type and the third of another; with `num_categories = 2` the selection
accepts the two same-typed categories, so the first two picks contain no
type-diverse pick although a second type is available. -/
theorem select_top_diversity_cex :
    select_top_categories
        [("Programming Languages", (5 : Rat)), ("Language Frameworks", 5),
          ("Cloud Platforms", 5)] 2
      = ["Programming Languages", "Language Frameworks"] ∧
    get_category_type "Language Frameworks" = get_category_type "Programming Languages" ∧
    get_category_type "Cloud Platforms" ≠ get_category_type "Programming Languages" := by
  with_unfolding_all decide

/-- Pass 1 only ever extends the accumulator of already selected categories. -/
theorem selectPass1_extends (n : Nat) :
    ∀ (l : List (String × Rat)) (sel types : List String),
      sel <+: selectPass1 n l sel types
  | [], sel, _ => List.prefix_refl sel
  | (category, v) :: rest, sel, types => by
    show sel <+: selectPass1 n ((category, v) :: rest) sel types
    rw [selectPass1]
    split
    · exact List.prefix_refl sel
    · dsimp only
      split
      · exact (sel.prefix_append [category]).trans (selectPass1_extends n rest _ _)
      · exact selectPass1_extends n rest sel types

/-- Pass 2 only ever extends the accumulator of already selected categories. -/
theorem selectPass2_extends (n : Nat) :
    ∀ (l : List (String × Rat)) (sel : List String), sel <+: selectPass2 n l sel
  | [], sel => List.prefix_refl sel
  | (category, v) :: rest, sel => by
    show sel <+: selectPass2 n ((category, v) :: rest) sel
    rw [selectPass2]
    split
    · exact List.prefix_refl sel
    · split
      · exact selectPass2_extends n rest sel
      · exact (sel.prefix_append [category]).trans (selectPass2_extends n rest _)

theorem take_two_of_extension {l m : List String} (h : l <+: m) (hl : 2 ≤ l.length) :
    m.take 2 = l.take 2 := by
  obtain ⟨t, rfl⟩ := h
  exact List.take_append_of_le_length hl

/-- C6 (amended): whenever at least two categories are scored and
`num_categories ≥ 2`, the first two selected categories are exactly the first
two categories of the stable descending-score order, regardless of their
types: any category is accepted while fewer than two have been selected, so
type diversity is only enforced from the third pick on. -/
theorem select_top_first_two (cs : List (String × Rat)) (n : Nat)
    (h2 : 2 ≤ n) (hlen : 2 ≤ cs.length) :
    (select_top_categories cs n).take 2
      = ((pySorted byScoreDesc cs).map Prod.fst).take 2 := by
  have hslen : 2 ≤ (pySorted byScoreDesc cs).length := by
    rw [length_pySorted]; exact hlen
  rcases hsort : pySorted byScoreDesc cs with _ | ⟨x, _ | ⟨y, rest⟩⟩
  · rw [hsort] at hslen; simp at hslen
  · rw [hsort] at hslen; simp at hslen
  obtain ⟨x1, x2⟩ := x
  obtain ⟨y1, y2⟩ := y
  have hpre : [x1, y1] <+: selectPass1 n ((x1, x2) :: (y1, y2) :: rest) [] [] := by
    rw [selectPass1,
      if_neg (by simp only [List.length_nil]; omega : ¬ n ≤ ([] : List String).length),
      if_pos (Or.inr (by simp : ([] : List String).length < 2))]
    rw [selectPass1,
      if_neg (by simp only [List.nil_append, List.length_cons, List.length_nil]; omega :
        ¬ n ≤ (([] : List String) ++ [x1]).length),
      if_pos (Or.inr (by simp : (([] : List String) ++ [x1]).length < 2))]
    exact selectPass1_extends n rest _ _
  rw [select_top_categories, hsort]
  rw [List.take_take, Nat.min_eq_left h2]
  split
  · rename_i hcond
    rw [take_two_of_extension (hpre.trans (selectPass2_extends n _ _)) (by simp)]
    simp
  · rw [take_two_of_extension hpre (by simp)]
    simp

theorem select_top_first_two_witness :
    (select_top_categories
          [("Programming Languages", (5 : Rat)), ("Backend Tools", 4),
            ("Data Science", 3)] 3).take 2
      = ((pySorted byScoreDesc
            [("Programming Languages", (5 : Rat)), ("Backend Tools", 4),
              ("Data Science", 3)]).map Prod.fst).take 2 :=
  select_top_first_two _ 3 (by omega) (by simp)

/-! ## C7: score normalization in the re-ranker -/

theorem foldl_min_le_init : ∀ (l : List Rat) (x : Rat), l.foldl min x ≤ x
  | [], x => le_refl x
  | y :: l, x => le_trans (foldl_min_le_init l (min x y)) (min_le_left x y)

theorem foldl_min_le_mem : ∀ (l : List Rat) (x y : Rat), y ∈ l → l.foldl min x ≤ y
  | [], _, y, h => absurd h (List.not_mem_nil y)
  | z :: l, x, y, h => by
    rcases List.mem_cons.1 h with rfl | h
    · exact le_trans (foldl_min_le_init l (min x y)) (min_le_right x y)
    · exact foldl_min_le_mem l (min x z) y h

theorem foldl_min_mem : ∀ (l : List Rat) (x : Rat), l.foldl min x ∈ x :: l
  | [], x => List.mem_singleton.2 rfl
  | y :: l, x => by
    have h := foldl_min_mem l (min x y)
    show List.foldl min (min x y) l ∈ x :: y :: l
    rcases List.mem_cons.1 h with he | hm
    · rw [he]
      rcases min_choice x y with hc | hc
      · rw [hc]; exact List.mem_cons_self _ _
      · rw [hc]; exact List.mem_cons_of_mem _ (List.mem_cons_self _ _)
    · exact List.mem_cons_of_mem _ (List.mem_cons_of_mem _ hm)

theorem listMin_mem : ∀ {l : List Rat}, l ≠ [] → listMin l ∈ l
  | [], h => absurd rfl h
  | x :: l, _ => foldl_min_mem l x

theorem listMin_le : ∀ {l : List Rat} {y : Rat}, y ∈ l → listMin l ≤ y
  | x :: l, y, h => by
    show List.foldl min x l ≤ y
    rcases List.mem_cons.1 h with rfl | h
    · exact foldl_min_le_init l y
    · exact foldl_min_le_mem l x y h

theorem byTripleScoreDesc_trans (a b c : Bullet × Rat × List String)
    (hab : byTripleScoreDesc a b) (hbc : byTripleScoreDesc b c) :
    byTripleScoreDesc a c := by
  simp only [byTripleScoreDesc, decide_eq_true_eq] at *
  exact le_trans hbc hab

theorem byTripleScoreDesc_total (a b : Bullet × Rat × List String) :
    byTripleScoreDesc a b || byTripleScoreDesc b a := by
  simp only [byTripleScoreDesc, Bool.or_eq_true, decide_eq_true_eq]
  exact le_total b.2.1 a.2.1

/-- C7: on a non-empty input the re-ranker's output is the descending-sorted
cross-encoder-scored list with every score shifted by `-min_score + 1`; in
particular the minimum output score is exactly 1, every output score is
strictly positive, and the output is sorted by non-increasing score. -/
theorem reranking_normalization (O : Oracles) (jdText : String)
    (results : List (Bullet × Rat × List String)) (h : results ≠ []) :
    apply_cross_encoder_reranking O results jdText
        = (cross_sorted O results jdText).map
            (fun x => (x.1,
              x.2.1 - listMin ((cross_sorted O results jdText).map (fun y => y.2.1)) + 1,
              x.2.2)) ∧
      listMin ((apply_cross_encoder_reranking O results jdText).map (fun x => x.2.1)) = 1 ∧
      (∀ x ∈ apply_cross_encoder_reranking O results jdText, 0 < x.2.1) ∧
      (apply_cross_encoder_reranking O results jdText).Pairwise
        (fun a b => b.2.1 ≤ a.2.1) := by
  have hne : cross_sorted O results jdText ≠ [] := by
    intro hnil
    have hlen := congrArg List.length hnil
    rw [cross_sorted, length_pySorted, List.length_map] at hlen
    simp only [List.length_nil] at hlen
    exact h (List.length_eq_zero.1 hlen)
  have heq : apply_cross_encoder_reranking O results jdText
      = (cross_sorted O results jdText).map
          (fun x => (x.1,
            x.2.1 - listMin ((cross_sorted O results jdText).map (fun y => y.2.1)) + 1,
            x.2.2)) := by
    rw [apply_cross_encoder_reranking,
      if_neg (by simp only [List.isEmpty_iff]; exact hne)]
  refine ⟨heq, ?_, ?_, ?_⟩
  · have hscores : (apply_cross_encoder_reranking O results jdText).map (fun x => x.2.1)
        = ((cross_sorted O results jdText).map (fun y => y.2.1)).map
            (fun v => v - listMin ((cross_sorted O results jdText).map (fun y => y.2.1)) + 1) := by
      rw [heq, List.map_map, List.map_map]
      rfl
    rw [hscores]
    have hmin : ∀ S : List Rat, S ≠ [] →
        listMin (S.map (fun v => v - listMin S + 1)) = 1 := by
      intro S hSne
      have hm := listMin_mem hSne
      have h1mem : (1 : Rat) ∈ S.map (fun v => v - listMin S + 1) :=
        List.mem_map.2 ⟨_, hm, by ring⟩
      have hTne : S.map (fun v => v - listMin S + 1) ≠ [] := by
        intro hc
        rw [hc] at h1mem
        exact (List.not_mem_nil _) h1mem
      have hge : ∀ z ∈ S.map (fun v => v - listMin S + 1), 1 ≤ z := by
        intro z hz
        rcases List.mem_map.1 hz with ⟨v, hv, rfl⟩
        have := listMin_le hv
        linarith
      have hle := listMin_le h1mem
      have := hge _ (listMin_mem hTne)
      linarith
    exact hmin _ (by simpa using hne)
  · intro x hx
    rw [heq] at hx
    rcases List.mem_map.1 hx with ⟨y, hy, rfl⟩
    have hym : y.2.1 ∈ (cross_sorted O results jdText).map (fun y => y.2.1) :=
      List.mem_map.2 ⟨y, hy, rfl⟩
    have := listMin_le hym
    show (0 : Rat) < _
    simp only
    linarith
  · have hpw : (cross_sorted O results jdText).Pairwise
        (fun a b => byTripleScoreDesc a b = true) := by
      rw [cross_sorted]
      exact pairwise_pySorted byTripleScoreDesc_trans byTripleScoreDesc_total _
    rw [heq, List.pairwise_map]
    refine hpw.imp ?_
    intro a b hab
    simp only [byTripleScoreDesc, decide_eq_true_eq] at hab
    simp only
    linarith

theorem reranking_normalization_witness :
    ([(bulletA, (0 : Rat), ([] : List String))]
          ≠ ([] : List (Bullet × Rat × List String))) ∧
      (apply_cross_encoder_reranking zeroOracles [(bulletA, 0, [])] "j"
          = (cross_sorted zeroOracles [(bulletA, 0, [])] "j").map
              (fun x => (x.1,
                x.2.1 - listMin ((cross_sorted zeroOracles
                  [(bulletA, 0, [])] "j").map (fun y => y.2.1)) + 1,
                x.2.2)) ∧
        listMin ((apply_cross_encoder_reranking zeroOracles
            [(bulletA, 0, [])] "j").map (fun x => x.2.1)) = 1 ∧
        (∀ x ∈ apply_cross_encoder_reranking zeroOracles [(bulletA, 0, [])] "j",
          0 < x.2.1) ∧
        (apply_cross_encoder_reranking zeroOracles [(bulletA, 0, [])] "j").Pairwise
          (fun a b => b.2.1 ≤ a.2.1)) :=
  ⟨by simp, reranking_normalization zeroOracles "j" [(bulletA, 0, [])] (by simp)⟩

/-! ## C3: ordering of the final recommendation list -/

/-- C3 counterexample: with a cross-encoder that slightly prefers the second
bullet, both bullets end with the same integer score 1, yet the second pool
bullet precedes the first in the output: equal-score ties follow the
re-ranked order, not first-seen input-pool order. -/
theorem recommend_tie_order_cex :
    recommend_with_matches tieOracles [bulletA, bulletB] "job" 2
        = [(bulletB, (1 : Int), ([] : List String)), (bulletA, 1, [])] ∧
      bulletA ≠ bulletB := by
  with_unfolding_all decide

theorem byIntScoreDesc_trans (a b c : Bullet × Int × List String)
    (hab : byIntScoreDesc a b) (hbc : byIntScoreDesc b c) : byIntScoreDesc a c := by
  simp only [byIntScoreDesc, decide_eq_true_eq] at *
  exact le_trans hbc hab

theorem byIntScoreDesc_total (a b : Bullet × Int × List String) :
    byIntScoreDesc a b || byIntScoreDesc b a := by
  simp only [byIntScoreDesc, Bool.or_eq_true, decide_eq_true_eq]
  exact le_total b.2.1 a.2.1

/-- C3 (amended): for every choice of capabilities, bullet pool, job text and
requested count, the final recommendation list is sorted by non-increasing
integer score (equal-score ties keep the order of the re-ranked list the
final stable sort receives, which is not in general the input-pool order). -/
theorem recommend_sorted_descending (O : Oracles) (bullets : List Bullet)
    (jdText : String) (top_n : Nat) :
    (recommend_with_matches O bullets jdText top_n).Pairwise
      (fun a b => b.2.1 ≤ a.2.1) := by
  unfold recommend_with_matches apply_priority_boosting
  refine (pairwise_pySorted byIntScoreDesc_trans byIntScoreDesc_total _).imp ?_
  intro a b hab
  simpa only [byIntScoreDesc, decide_eq_true_eq] using hab

/-! ## C1 / C10: bounds and distinctness of `recommend_skills` output -/

theorem foldl_cond_append (R : String → List String) :
    ∀ (l : List String) (acc : List (String × List String)),
      l.foldl (fun result category =>
          if R category = [] then result else result ++ [(category, R category)]) acc
        = acc ++ l.filterMap (fun c => if R c = [] then none else some (c, R c))
  | [], acc => by simp
  | c :: l, acc => by
    rw [List.foldl_cons, foldl_cond_append R l _]
    by_cases h : R c = []
    · simp [h, List.filterMap_cons]
    · simp [h, List.filterMap_cons]

/-- `recommend_skills` as a `filterMap` over the selected categories. -/
theorem recommend_skills_eq_filterMap (tax : Taxonomy) (jd : String) (n : Nat) :
    recommend_skills tax jd n
      = (select_top_categories (score_categories tax (score_skills tax jd)) n).filterMap
          (fun c =>
            if relevant_skills (score_skills tax jd)
                ((List.lookup c (build_category_index tax)).getD []) = [] then none
            else some (c, relevant_skills (score_skills tax jd)
                ((List.lookup c (build_category_index tax)).getD []))) := by
  unfold recommend_skills
  exact foldl_cond_append _ _ []

theorem score_skills_foldl_pos (jobText : String) :
    ∀ (l : Taxonomy) (acc : List (String × Rat)),
      (∀ p ∈ acc, 0 < p.2) →
      ∀ p ∈ l.foldl (fun acc q =>
          if 0 < calculate_skill_relevance q.1 jobText then
            acc ++ [(q.1, calculate_skill_relevance q.1 jobText)] else acc) acc,
        0 < p.2
  | [], _, hacc => hacc
  | q :: l, acc, hacc => by
    rw [List.foldl_cons]
    refine score_skills_foldl_pos jobText l _ ?_
    by_cases h : 0 < calculate_skill_relevance q.1 jobText
    · rw [if_pos h]
      intro p hp
      rcases List.mem_append.1 hp with hp | hp
      · exact hacc p hp
      · rcases List.mem_singleton.1 hp with rfl
        exact h
    · rw [if_neg h]
      exact hacc

/-- Every entry surviving `_score_skills` has a strictly positive score. -/
theorem score_skills_pos (tax : Taxonomy) (jd : String) :
    ∀ p ∈ score_skills tax jd, 0 < p.2 := by
  unfold score_skills
  exact score_skills_foldl_pos (pyLower jd) tax [] (by simp)

theorem mem_of_lookup_eq_some :
    ∀ {l : List (String × Rat)} {k : String} {v : Rat},
      List.lookup k l = some v → (k, v) ∈ l
  | (a, b) :: l, k, v, h => by
    rcases hbeq : k == a with _ | _
    · simp only [List.lookup, hbeq] at h
      exact List.mem_cons_of_mem _ (mem_of_lookup_eq_some h)
    · have hka : k = a := eq_of_beq hbeq
      simp only [List.lookup, hbeq] at h
      rcases Option.some.inj h with rfl
      subst hka
      exact List.mem_cons_self _ _

/-- C1: the skill recommendation always returns at most `num_categories`
pairs, each with at most 4 skills, and every returned skill has a strictly
positive relevance score in the surviving skill-score table (so a category
whose aggregate score is zero contributes nothing, since it has no surviving
member skills at all). -/
theorem recommend_skills_bounds (tax : Taxonomy) (jd : String) (n : Nat)
    (p : String × List String) (hp : p ∈ recommend_skills tax jd n)
    (s : String) (hs : s ∈ p.2) :
    (recommend_skills tax jd n).length ≤ n ∧ p.2.length ≤ 4 ∧
      ∃ sc : Rat, List.lookup s (score_skills tax jd) = some sc ∧ 0 < sc := by
  have hfm := recommend_skills_eq_filterMap tax jd n
  have hkey : ∃ c, p = (c, relevant_skills (score_skills tax jd)
      ((List.lookup c (build_category_index tax)).getD [])) := by
    rw [hfm] at hp
    rcases List.mem_filterMap.1 hp with ⟨c, _, hsome⟩
    by_cases hrs : relevant_skills (score_skills tax jd)
        ((List.lookup c (build_category_index tax)).getD []) = []
    · rw [if_pos hrs] at hsome
      cases hsome
    · rw [if_neg hrs] at hsome
      exact ⟨c, (Option.some.inj hsome).symm⟩
  obtain ⟨c, rfl⟩ := hkey
  refine ⟨?_, ?_, ?_⟩
  · rw [hfm]
    exact le_trans (List.length_filterMap_le _ _) (List.length_take_le _ _)
  · exact List.length_take_le _ _
  · have hs' : s ∈ pySorted
        (fun a b => decide ((List.lookup b (score_skills tax jd)).getD 0
          ≤ (List.lookup a (score_skills tax jd)).getD 0))
        (((List.lookup c (build_category_index tax)).getD []).filter
          (fun s => (List.lookup s (score_skills tax jd)).isSome)) :=
      List.mem_of_mem_take hs
    have hs'' := mem_pySorted.1 hs'
    have hpred := (List.mem_filter.1 hs'').2
    rcases Option.isSome_iff_exists.1 hpred with ⟨sc, hsc⟩
    exact ⟨sc, hsc, score_skills_pos tax jd _ (mem_of_lookup_eq_some hsc)⟩

theorem recommend_skills_bounds_witness :
    (recommend_skills [("python", ["Programming Languages"])] "python" 1).length ≤ 1 ∧
      (("Programming Languages", ["python"]) : String × List String).2.length ≤ 4 ∧
      ∃ sc : Rat, List.lookup "python"
          (score_skills [("python", ["Programming Languages"])] "python") = some sc ∧
        0 < sc :=
  recommend_skills_bounds [("python", ["Programming Languages"])] "python" 1
    ("Programming Languages", ["python"]) (by with_unfolding_all decide)
    "python" (by decide)

theorem addScore_keys :
    ∀ (acc : List (String × Rat)) (cat : String) (sc : Rat),
      (addScore acc cat sc).map Prod.fst
        = if cat ∈ acc.map Prod.fst then acc.map Prod.fst
          else acc.map Prod.fst ++ [cat]
  | [], cat, sc => by simp [addScore]
  | (c, v) :: acc, cat, sc => by
    rw [addScore]
    by_cases h : c = cat
    · subst h
      rw [if_pos rfl, if_pos (by simp)]
      simp
    · rw [if_neg h]
      simp only [List.map_cons]
      rw [addScore_keys acc cat sc]
      by_cases hmem : cat ∈ acc.map Prod.fst
      · rw [if_pos hmem, if_pos (by simp [hmem])]
      · rw [if_neg hmem,
          if_neg (by simp only [List.mem_cons]; rintro (rfl | hc) <;> simp_all)]
        simp

theorem addScore_keys_nodup {acc : List (String × Rat)} {cat : String} {sc : Rat}
    (h : (acc.map Prod.fst).Nodup) : ((addScore acc cat sc).map Prod.fst).Nodup := by
  rw [addScore_keys]
  by_cases hmem : cat ∈ acc.map Prod.fst
  · rwa [if_pos hmem]
  · rw [if_neg hmem]
    simp [List.nodup_append, h, hmem]

theorem score_categories_inner_nodup (sc : Rat) :
    ∀ (cats : List String) (acc : List (String × Rat)),
      (acc.map Prod.fst).Nodup →
      ((cats.foldl (fun a c => addScore a c sc) acc).map Prod.fst).Nodup
  | [], _, h => h
  | c :: cats, acc, h => by
    rw [List.foldl_cons]
    exact score_categories_inner_nodup sc cats _ (addScore_keys_nodup h)

/-- The category-score aggregate never repeats a category key. -/
theorem score_categories_keys_nodup (tax : Taxonomy)
    (skillScores : List (String × Rat)) :
    ((score_categories tax skillScores).map Prod.fst).Nodup := by
  unfold score_categories
  suffices h : ∀ (l acc : List (String × Rat)),
      (acc.map Prod.fst).Nodup →
      ((l.foldl (fun acc p => ((List.lookup p.1 tax).getD []).foldl
          (fun a c => addScore a c p.2) acc) acc).map Prod.fst).Nodup by
    exact h skillScores [] (by simp)
  intro l
  induction l with
  | nil => intro acc h; exact h
  | cons p l ih =>
    intro acc h
    rw [List.foldl_cons]
    exact ih _ (score_categories_inner_nodup p.2 _ acc h)

theorem selectPass1_nodup (n : Nat) :
    ∀ (l : List (String × Rat)) (sel types : List String),
      sel.Nodup → (∀ c ∈ l.map Prod.fst, c ∉ sel) → (l.map Prod.fst).Nodup →
      (selectPass1 n l sel types).Nodup
  | [], _, _, hsel, _, _ => hsel
  | (category, v) :: rest, sel, types, hsel, hdisj, hkeys => by
    have hkeys' : (rest.map Prod.fst).Nodup :=
      (List.nodup_cons.1 (by simpa using hkeys)).2
    have hnotin : category ∉ rest.map Prod.fst :=
      (List.nodup_cons.1 (by simpa using hkeys)).1
    rw [selectPass1]
    split
    · exact hsel
    · dsimp only
      split
      · refine selectPass1_nodup n rest _ _ ?_ ?_ hkeys'
        · simp [List.nodup_append, hsel, hdisj category (by simp)]
        · intro c hc hmem
          rcases List.mem_append.1 hmem with h1 | h1
          · exact hdisj c (by simp [hc]) h1
          · rcases List.mem_singleton.1 h1 with rfl
            exact hnotin hc
      · exact selectPass1_nodup n rest sel types hsel
          (fun c hc => hdisj c (by simp [hc])) hkeys'

theorem selectPass2_nodup (n : Nat) :
    ∀ (l : List (String × Rat)) (sel : List String),
      sel.Nodup → (selectPass2 n l sel).Nodup
  | [], _, h => h
  | (category, v) :: rest, sel, h => by
    rw [selectPass2]
    split
    · exact h
    · split
      · exact selectPass2_nodup n rest sel h
      · rename_i hnot
        refine selectPass2_nodup n rest _ ?_
        simp [List.nodup_append, h, hnot]

/-- The selected category list never repeats a category. -/
theorem select_top_categories_nodup (cs : List (String × Rat)) (n : Nat)
    (h : (cs.map Prod.fst).Nodup) : (select_top_categories cs n).Nodup := by
  have hsorted : ((pySorted byScoreDesc cs).map Prod.fst).Nodup :=
    (((pySorted_perm byScoreDesc cs).map Prod.fst).nodup_iff).2 h
  unfold select_top_categories
  refine List.Nodup.sublist (List.take_sublist _ _) ?_
  dsimp only
  split
  · exact selectPass2_nodup n _ _
      (selectPass1_nodup n _ [] [] (by simp) (by simp) hsorted)
  · exact selectPass1_nodup n _ [] [] (by simp) (by simp) hsorted

theorem filterMap_fst_sublist (f : String → Option (String × List String))
    (hf : ∀ c p, f c = some p → p.1 = c) :
    ∀ l : List String, List.Sublist ((l.filterMap f).map Prod.fst) l
  | [] => by simp
  | c :: l => by
    rcases hfc : f c with _ | p
    · rw [List.filterMap_cons, hfc]
      exact (filterMap_fst_sublist f hf l).cons c
    · rw [List.filterMap_cons, hfc, List.map_cons, hf c p hfc]
      exact (filterMap_fst_sublist f hf l).cons₂ c

/-- C10: the category names of the pairs returned by `recommend_skills` are
pairwise distinct, for every taxonomy, job text and requested count; pass 2
skips already-selected categories, pass 1 visits each aggregated category
once, and the aggregate itself never repeats a key. -/
theorem recommend_skills_categories_nodup (tax : Taxonomy) (jd : String) (n : Nat) :
    ((recommend_skills tax jd n).map Prod.fst).Nodup := by
  rw [recommend_skills_eq_filterMap tax jd n]
  refine List.Nodup.sublist (filterMap_fst_sublist _ ?_ _)
    (select_top_categories_nodup _ n (score_categories_keys_nodup _ _))
  intro c p hp
  by_cases h : relevant_skills (score_skills tax jd)
      ((List.lookup c (build_category_index tax)).getD []) = []
  · rw [if_pos h] at hp
    cases hp
  · rw [if_neg h] at hp
    rcases Option.some.inj hp with rfl
    rfl

/-! ## C5: pool size preservation in the bullet recommender -/

/-- C5 counterexample: two distinct bullet records whose texts normalize
identically collapse to one mapping entry (last write wins), so with
`top_n = N = 2` the pipeline returns 1 scored bullet, not 2. -/
theorem recommend_duplicate_drop_cex :
    (recommend_with_matches zeroOracles [⟨"dup", 1⟩, ⟨"dup", 2⟩] "job"
        ([⟨"dup", 1⟩, ⟨"dup", 2⟩] : List Bullet).length).length
      ≠ ([⟨"dup", 1⟩, ⟨"dup", 2⟩] : List Bullet).length := by
  with_unfolding_all decide

theorem dictInsert_of_not_mem :
    ∀ {acc : List (String × Bullet)} {k : String} {v : Bullet},
      k ∉ acc.map Prod.fst → dictInsert acc k v = acc ++ [(k, v)]
  | [], _, _, _ => rfl
  | (k0, v0) :: acc, k, v, h => by
    have hne : ¬ k0 = k := fun he => h (by simp [he])
    rw [dictInsert, if_neg hne,
      dictInsert_of_not_mem (fun hm => h (by simp [hm]))]
    rfl

/-- With pairwise distinct normalized texts the text→record mapping keeps
every bullet, in order. -/
theorem foldl_dictInsert_eq :
    ∀ (bullets : List Bullet) (acc : List (String × Bullet)),
      (acc.map Prod.fst ++ bullets.map (fun b => preprocess_text b.bullet)).Nodup →
      bullets.foldl (fun acc b => dictInsert acc (preprocess_text b.bullet) b) acc
        = acc ++ bullets.map (fun b => (preprocess_text b.bullet, b))
  | [], acc, _ => by simp
  | b :: bullets, acc, h => by
    have h' : (acc.map Prod.fst ++
        (preprocess_text b.bullet :: bullets.map (fun b => preprocess_text b.bullet))).Nodup := by
      simpa using h
    have hnotin : preprocess_text b.bullet ∉ acc.map Prod.fst := by
      intro hm
      exact ((List.nodup_append.1 h').2.2 hm) (List.mem_cons_self _ _)
    rw [List.foldl_cons, dictInsert_of_not_mem hnotin,
      foldl_dictInsert_eq bullets (acc ++ [(preprocess_text b.bullet, b)]) ?_]
    · simp
    · simp only [List.map_append, List.map_cons, List.map_nil]
      have : acc.map Prod.fst ++ [preprocess_text b.bullet]
            ++ bullets.map (fun b => preprocess_text b.bullet)
          = acc.map Prod.fst ++
            (preprocess_text b.bullet :: bullets.map (fun b => preprocess_text b.bullet)) := by
        simp
      rw [List.append_assoc]
      simpa using h'

theorem lookup_some_of_mem_keys :
    ∀ {l : List (String × Bullet)} {k : String},
      k ∈ l.map Prod.fst → ∃ v, List.lookup k l = some v
  | (a, b) :: l, k, h => by
    rw [List.map_cons] at h
    rcases hbeq : k == a with _ | _
    · have h' : k ∈ l.map Prod.fst := by
        rcases List.mem_cons.1 h with h1 | h1
        · exact absurd hbeq (by simp [h1])
        · exact h1
      rcases lookup_some_of_mem_keys h' with ⟨v, hv⟩
      exact ⟨v, by simp only [List.lookup, hbeq]; exact hv⟩
    · exact ⟨b, by simp only [List.lookup, hbeq]⟩

theorem foldl_lookup_append_length (mapping : List (String × Bullet)) :
    ∀ (recs : List (String × Rat)) (acc : List (Bullet × Rat × List String)),
      (∀ p ∈ recs, p.1 ∈ mapping.map Prod.fst) →
      (recs.foldl (fun results p =>
          match List.lookup p.1 mapping with
          | some original => results ++ [(original, p.2 * 100, ([] : List String))]
          | none => results) acc).length = acc.length + recs.length
  | [], _, _ => by simp
  | p :: recs, acc, hmem => by
    rcases lookup_some_of_mem_keys (hmem p (by simp)) with ⟨v, hv⟩
    rw [List.foldl_cons]
    simp only [hv]
    rw [foldl_lookup_append_length mapping recs _ (fun q hq => hmem q (by simp [hq]))]
    simp only [List.length_append, List.length_cons, List.length_nil]
    omega

theorem length_two_tower (O : Oracles) (jd : String) (texts : List String) (n : Nat) :
    (two_tower_recommendation O jd texts n).length = min n texts.length := by
  unfold two_tower_recommendation
  rw [List.length_take, length_pySorted, List.length_map]

theorem two_tower_mem_texts (O : Oracles) (jd : String) (texts : List String) (n : Nat)
    {p : String × Rat} (hp : p ∈ two_tower_recommendation O jd texts n) :
    p.1 ∈ texts := by
  unfold two_tower_recommendation at hp
  have hmem := mem_pySorted.1 (List.mem_of_mem_take hp)
  rcases List.mem_map.1 hmem with ⟨t, ht, rfl⟩
  exact ht

theorem length_get_semantic (O : Oracles) (bullets : List Bullet) (jdText : String)
    (h : (bullets.map (fun b => preprocess_text b.bullet)).Nodup) :
    (get_semantic_recommendations O bullets jdText bullets.length).length
      = bullets.length := by
  unfold get_semantic_recommendations
  dsimp only
  rw [foldl_dictInsert_eq bullets [] (by simpa using h), List.nil_append]
  rw [foldl_lookup_append_length (bullets.map fun b => (preprocess_text b.bullet, b))
      _ _ (fun p hp => two_tower_mem_texts _ _ _ _ hp)]
  rw [List.length_nil, length_two_tower, List.length_map, List.length_map,
    Nat.zero_add, Nat.min_self]

theorem length_reranking (O : Oracles) (results : List (Bullet × Rat × List String))
    (jdText : String) :
    (apply_cross_encoder_reranking O results jdText).length = results.length := by
  have hlen : (cross_sorted O results jdText).length = results.length := by
    rw [cross_sorted, length_pySorted, List.length_map]
  unfold apply_cross_encoder_reranking
  dsimp only
  split
  · exact hlen
  · rw [List.length_map]
    exact hlen

theorem length_boosting (O : Oracles) (results : List (Bullet × Rat × List String))
    (jdText : String) (pr : PrioritySet) :
    (apply_priority_boosting O results jdText pr).length = results.length := by
  unfold apply_priority_boosting
  dsimp only
  rw [length_pySorted, List.length_map]

/-- C5 (amended): when the bullets' normalized texts are pairwise distinct,
calling the recommender with `top_n` equal to the pool size returns exactly
one scored triple per bullet (no bullet is dropped); with colliding
normalized texts the mapping loses records (last write wins) and the output
is shorter. -/
theorem recommend_full_pool_length (O : Oracles) (bullets : List Bullet)
    (jdText : String)
    (h : (bullets.map (fun b => preprocess_text b.bullet)).Nodup) :
    (recommend_with_matches O bullets jdText bullets.length).length
      = bullets.length := by
  unfold recommend_with_matches
  dsimp only
  rw [length_boosting, length_reranking, length_get_semantic O bullets jdText h]

theorem recommend_full_pool_length_witness :
    (([⟨"alpha one", 1⟩, ⟨"beta two", 1⟩] : List Bullet).map
        (fun b => preprocess_text b.bullet)).Nodup ∧
      (recommend_with_matches zeroOracles [⟨"alpha one", 1⟩, ⟨"beta two", 1⟩] "job"
          ([⟨"alpha one", 1⟩, ⟨"beta two", 1⟩] : List Bullet).length).length
        = ([⟨"alpha one", 1⟩, ⟨"beta two", 1⟩] : List Bullet).length :=
  ⟨by decide,
    recommend_full_pool_length zeroOracles [⟨"alpha one", 1⟩, ⟨"beta two", 1⟩] "job"
      (by decide)⟩
